import Mathlib

/-!
Verification of the virtual-collection / sparse-attribute engine of the
JIT_NEST repository (`src/models/jit_model.py` and its creation helpers),
embedded shallowly in Lean.

Python `int` is modelled as `Int`, Python lists as `List`, dictionaries as
association lists in insertion order, and raised exceptions as
`Except String` with the Python exception class name as the error string.
-/

/-- Attribute values as they flow through `JitModel.set`/`get`: a Python
scalar (modelled as an integer payload) or a Python `list`/`tuple` of
values.  `isinstance(v, (tuple, list))` corresponds to the `vec`
constructor. -/
inductive PVal where
  | num : Int → PVal
  | vec : List PVal → PVal

/-- `JitNode` (src/models/jit_model.py, lines 330-601): one contiguous
block `[first, last)` of virtual IDs of the model `name`.  The constructor
always sets `isDefault = True`. -/
structure JitNode where
  name : String
  first : Int
  last : Int
  isDefault : Bool := true
deriving DecidableEq, Repr

/-- Python `list(range(a, b))` over integers. -/
def intRange (a b : Int) : List Int :=
  (List.range (b - a).toNat).map (fun n : Nat => a + (n : Int))

/-- `JitNode.tolist` (lines 550-559): `list(range(self.first, self.last))`. -/
def JitNode.tolist (n : JitNode) : List Int :=
  intRange n.first n.last

/-- `JitNode.__contains__` (lines 381-386), integer case:
`if obj < self.first and obj >= self.last: return False` then `return True`. -/
def JitNode.containsInt (n : JitNode) (i : Int) : Bool :=
  if i < n.first ∧ i ≥ n.last then false else true

/-- Loop body of `JitNode.__groupByDistance` (lines 479-489): scan `items`,
extending the current run `[first, last]` while the next element is exactly
`last + 1`, closing the run (appending `(first, last + 1)`) otherwise. -/
def groupLoop : List Int → Int → Int → List (Int × Int) → List (Int × Int)
  | [], first, last, res => res ++ [(first, last + 1)]
  | i :: rest, first, last, res =>
      if i - last = 1 then groupLoop rest first i res
      else groupLoop rest i i (res ++ [(first, last + 1)])

/-- `JitNode.__groupByDistance` (lines 463-490).  The source raises
`IndexError` on an empty input (it reads `items[0]`); it is never called
with one, and the empty case is modelled as `[]`. -/
def groupByDistance : List Int → List (Int × Int)
  | [] => []
  | [x] => [(x, x + 1)]
  | x :: y :: rest => groupLoop (y :: rest) x x []

/-- `JitNode.__getNodesAt` (lines 440-461): when every position is below
`len(self)`, group the positions into runs and emit one `JitNode` per run
with `first = self.first + group[0]` and
`last = first + group[1] - group[0]`; otherwise the function falls off the
end and returns Python `None`, modelled as `none`. -/
def JitNode.getNodesAt (n : JitNode) (items : List Int) : Option (List JitNode) :=
  if items.all (fun p => decide (p < n.last - n.first)) then
    some ((groupByDistance items).map (fun g =>
      { name := n.name, first := n.first + g.1, last := n.first + g.1 + g.2 - g.1 }))
  else
    none

/-- Boolean-mask branch of `JitNode.__getitem__` (lines 421-438): checks the
mask length against `len(self)`, computes `npKey = argwhere(mask)` but then
passes the *original* mask `key` to `__getNodesAt` (line 438), where the
booleans coerce to the integers 1/0.  The empty-key early return of
lines 422-423 (a fresh empty `JitNode`) is not modelled; the claims only use
non-empty masks. -/
def JitNode.getItemBool (n : JitNode) (key : List Bool) : Except String (Option (List JitNode)) :=
  if (key.length : Int) ≠ n.last - n.first then .error "IndexError"
  else .ok (n.getNodesAt (key.map (fun b => if b then (1 : Int) else 0)))

/-- `JitNodeCollection` (src/models/jit_model.py, lines 604-837): an ordered
sequence of `JitNode`s.  A collection built directly from an allocation is
constructed with `isNotInitial=False` (src/helpers/create_helper.py,
line 179); the constructor's default — used by every derived/sliced view —
is `isNotInitial=True`.  The `spatial`/`changed` fields play no role in the
claims and are omitted. -/
structure JitNodeCollection where
  nodes : List JitNode
  isNotInitial : Bool
deriving DecidableEq, Repr

/-- `JitNodeCollection.createNodeCollection` (lines 730-749): only a
collection with `isNotInitial=False` may be materialized; the success path
reads `self.nodes[0]` (an `IndexError` on an empty collection), pushes the
accumulated attributes to the external engine (elided: the engine call is
an external collaborator), flips `isNotInitial` to `True` and returns.  Any
other call raises the single generic
`Exception("Only initial JitNodeCollection can be converted to NodeCollection")`. -/
def JitNodeCollection.createNodeCollection (c : JitNodeCollection) :
    Except String JitNodeCollection :=
  if c.isNotInitial = false then
    match c.nodes with
    | [] => .error "IndexError"
    | _ :: _ => .ok { c with isNotInitial := true }
  else
    .error "Only initial JitNodeCollection can be converted to NodeCollection"

/-- `JitNodeCollection.__add__` (lines 710-714): the method deep-copies
`self.nodes`, but then evaluates `copy.nodes` — `copy` being the imported
standard-library module, not the `other` operand — so every merge raises
`AttributeError` before any concatenation happens. -/
def JitNodeCollection.add (c other : JitNodeCollection) : Except String JitNodeCollection :=
  .error "AttributeError: module copy has no attribute nodes"

/-- Python `list.index` restricted to members: index of the first
occurrence of `i` in the list (`0` if absent; the callers guard with a
membership test first, exactly as the source guards `.index` with `in`). -/
def firstIdx : List Int → Int → Nat
  | [], _ => 0
  | x :: rest, i => if x = i then 0 else firstIdx rest i + 1

/-- `JitAtribute` (src/models/jit_model.py, lines 840-937): per-attribute
sparse overlay, parallel lists of instance ids and their override values. -/
structure JitAtribute where
  attributeName : String
  modelIds : List Int
  values : List PVal

/-- `JitAtribute.__init__` (lines 843-871): raises `ValueError` when
`len(ids) != len(values) and len(ids) != 1`; when `len(ids) < len(values)
and len(ids) == 1` it appends the whole `values` list as a single stored
value, otherwise it extends element-wise.  The `range`/`list`/`set` type
dispatch on `ids` is represented by taking `ids` as a list. -/
def JitAtribute.init (attributeName : String) (ids : List Int) (values : List PVal) :
    Except String JitAtribute :=
  if ids.length ≠ values.length ∧ ids.length ≠ 1 then
    .error "ValueError"
  else
    .ok { attributeName := attributeName, modelIds := ids,
          values :=
            if ids.length < values.length ∧ ids.length = 1 then [PVal.vec values]
            else values }

/-- `JitAtribute.__contains__` (lines 873-878), integer case:
`other in self.modelIds`. -/
def JitAtribute.containsId (a : JitAtribute) (i : Int) : Bool :=
  a.modelIds.contains i

/-- `JitAtribute.getValueOfId` (lines 880-900): look up the first index of
`modelId` in `modelIds` and return the parallel value (`IndexError` when the
parallel list is shorter, `ValueError` when the id has no override; the
lazy `Parameter.GetValue` resolution concerns a value class that does not
occur in this model). -/
def JitAtribute.getValueOfId (a : JitAtribute) (i : Int) : Except String PVal :=
  if a.containsId i then
    match a.values[firstIdx a.modelIds i]? with
    | some v => .ok v
    | none => .error "IndexError"
  else
    .error "ValueError"

/-- One iteration of the loop in `JitAtribute.update` (lines 931-937):
overwrite the value at the id's first index when the id is present
(`self.values[index] = values[pos]` — an `IndexError` when the parallel
list is shorter), append both otherwise. -/
def JitAtribute.upsertOne (a : JitAtribute) (i : Int) (v : PVal) : Except String JitAtribute :=
  if a.modelIds.contains i then
    if firstIdx a.modelIds i < a.values.length then
      .ok { a with values := a.values.set (firstIdx a.modelIds i) v }
    else
      .error "IndexError"
  else
    .ok { a with modelIds := a.modelIds ++ [i], values := a.values ++ [v] }

/-- The loop of `JitAtribute.update` over the `(id, value)` pairs in
position order. -/
def JitAtribute.updateGo (a : JitAtribute) : List (Int × PVal) → Except String JitAtribute
  | [] => .ok a
  | p :: rest =>
      match a.upsertOne p.1 p.2 with
      | .ok a' => a'.updateGo rest
      | .error e => .error e

/-- `JitAtribute.update` (lines 918-937): raises `ValueError` when
`len(ids) != len(values)`, otherwise upserts each pair in order. -/
def JitAtribute.update (a : JitAtribute) (ids : List Int) (values : List PVal) :
    Except String JitAtribute :=
  if ids.length ≠ values.length then .error "ValueError"
  else a.updateGo (ids.zip values)

/-- The parallel-list well-formedness used by the lookup paths:
`len(ids) == len(values)`. -/
def JitAtribute.WF (a : JitAtribute) : Prop :=
  a.modelIds.length = a.values.length

/-- The full AttributeStore invariant of the spec's data model:
`len(ids) == len(values)` and an id appears at most once. -/
def JitAtribute.Inv (a : JitAtribute) : Prop :=
  a.modelIds.length = a.values.length ∧ a.modelIds.Nodup

/-- The spec's wording of the upsert step of `update(ids, values)`: "if
`id` already present, overwrite in place; otherwise append". -/
def specUpsertStep (a : JitAtribute) (p : Int × PVal) : JitAtribute :=
  if a.modelIds.contains p.1 then
    { a with values := a.values.set (firstIdx a.modelIds p.1) p.2 }
  else
    { a with modelIds := a.modelIds ++ [p.1], values := a.values ++ [p.2] }

/-- Association-list read, first binding wins — Python dictionary lookup. -/
def alistGet {α : Type} : List (String × α) → String → Option α
  | [], _ => none
  | (k', v) :: rest, k => if k' = k then some v else alistGet rest k

/-- Association-list write — Python dictionary assignment: replace the
existing binding in place or append a new one. -/
def alistSet {α : Type} : List (String × α) → String → α → List (String × α)
  | [], k, v => [(k, v)]
  | (k', v') :: rest, k, v =>
      if k' = k then (k, v) :: rest else (k', v') :: alistSet rest k v

/-- `isinstance(v[0], (list, tuple))` on the head of a Python list
(`False` on an empty list, where the short-circuit `len(v) > 0` already
failed). -/
def headIsList : List PVal → Bool
  | PVal.vec _ :: _ => true
  | _ => false

/-- `JitModel` (src/models/jit_model.py, lines 10-327) restricted to the
state the attribute claims exercise: the `default` dictionary and the
per-attribute overlay dictionary `attributes`. -/
structure JitModel where
  default : List (String × PVal)
  attributes : List (String × JitAtribute)

/-- Every stored attribute has parallel lists of equal length. -/
def JitModel.WF (m : JitModel) : Prop :=
  ∀ k a, alistGet m.attributes k = some a → a.WF

/-- One `(k, v)` iteration of `JitModel.set` (lines 254-279): a
`list`/`tuple` value raises `TypeError` when its length differs from
`len(ids)` *and* its first element is itself a list, then is routed to
`update` on an existing store or to the `JitAtribute` constructor; a scalar
is broadcast as `[v] * len(ids)` first. -/
def JitModel.setOne (m : JitModel) (ids : List Int) (k : String) (v : PVal) :
    Except String JitModel :=
  match v with
  | PVal.vec vs =>
      if vs.length ≠ ids.length ∧ headIsList vs then .error "TypeError"
      else
        match alistGet m.attributes k with
        | some attr =>
            (attr.update ids vs).map (fun a => { m with attributes := alistSet m.attributes k a })
        | none =>
            (JitAtribute.init k ids vs).map
              (fun a => { m with attributes := alistSet m.attributes k a })
  | PVal.num _ =>
      let values := List.replicate ids.length v
      match alistGet m.attributes k with
      | some attr =>
          (attr.update ids values).map (fun a => { m with attributes := alistSet m.attributes k a })
      | none =>
          (JitAtribute.init k ids values).map
            (fun a => { m with attributes := alistSet m.attributes k a })

/-- `JitModel.set` (lines 254-279): iterate the collection dictionary in
order. -/
def JitModel.set (m : JitModel) (ids : List Int) :
    List (String × PVal) → Except String JitModel
  | [] => .ok m
  | (k, v) :: rest =>
      match m.setOne ids k v with
      | .ok m' => m'.set ids rest
      | .error e => .error e

/-- The inner `for i in ids` loop of `JitModel.get` (lines 232-245) for one
key `k`: use the overlay value when the id has one, else (unless
`onlyChanged`) the model default `self.default[k]`. -/
def JitModel.getK (m : JitModel) (k : String) (onlyChanged : Bool) :
    List Int → Except String (List PVal)
  | [] => .ok []
  | i :: rest =>
      match alistGet m.attributes k with
      | some attr =>
          if attr.containsId i then
            match attr.getValueOfId i with
            | .ok v => (m.getK k onlyChanged rest).map (fun tail => v :: tail)
            | .error e => .error e
          else if onlyChanged then m.getK k onlyChanged rest
          else
            match alistGet m.default k with
            | some d => (m.getK k onlyChanged rest).map (fun tail => d :: tail)
            | none => .error "KeyError"
      | none =>
          if onlyChanged then m.getK k onlyChanged rest
          else
            match alistGet m.default k with
            | some d => (m.getK k onlyChanged rest).map (fun tail => d :: tail)
            | none => .error "KeyError"

/-- A value of the result dictionary of `JitModel.get`: a bare scalar when
exactly one value was collected (`res[k] = valuesOfK[0]`), the list
otherwise. -/
inductive GetRes where
  | one : PVal → GetRes
  | many : List PVal → GetRes

/-- The packaging rule of `JitModel.get` (lines 246-251) for a non-empty
collected list. -/
def packVals : List PVal → GetRes
  | [v] => GetRes.one v
  | l => GetRes.many l

/-- The outer `for k in items` loop of `JitModel.get` with the result
dictionary accumulator: a key that collected nothing is skipped. -/
def JitModel.getGo (m : JitModel) (ids : List Int) (onlyChanged : Bool) :
    List String → List (String × GetRes) → Except String (List (String × GetRes))
  | [], res => .ok res
  | k :: rest, res =>
      match m.getK k onlyChanged ids with
      | .ok [] => m.getGo ids onlyChanged rest res
      | .ok vals => m.getGo ids onlyChanged rest (alistSet res k (packVals vals))
      | .error e => .error e

/-- `JitModel.get` (lines 211-252): first filter `items` down to the keys
of `default`, then collect per-key values. -/
def JitModel.get (m : JitModel) (ids : List Int) (items : List String) (onlyChanged : Bool) :
    Except String (List (String × GetRes)) :=
  m.getGo ids onlyChanged
    (items.filter (fun k => (m.default.map Prod.fst).contains k)) []

/-- The per-key loop of `JitModel.setDefaults` (lines 137-156): the ids to
pin are all currently-known model ids (`ModelManager.getIds`, a registry
outside `src/`, modelled as the `modelsIds` argument) minus the ids already
overridden for that key; they are explicitly `set` to the *old* default
before the defaults dictionary is updated.  Python's
`list(set(...).difference(...))` iterates in unspecified order, modelled
order-preservingly as `dedup` + `filter`. -/
def JitModel.setDefaultsGo (modelsIds : List Int) :
    JitModel → List String → Except String JitModel
  | m, [] => .ok m
  | m, k :: rest =>
      let ignored : List Int :=
        match alistGet m.attributes k with
        | some a => a.modelIds
        | none => []
      let modelsToUpdate := modelsIds.dedup.filter (fun i => !(ignored.contains i))
      match alistGet m.default k with
      | none => .error "KeyError"
      | some d =>
          match m.set modelsToUpdate [(k, d)] with
          | .ok m' => JitModel.setDefaultsGo modelsIds m' rest
          | .error e => .error e

/-- `JitModel.setDefaults` (lines 137-156): pin the old default onto every
known, not-yet-overridden id, then `self.default.update(dicOfParams)`. -/
def JitModel.setDefaults (m : JitModel) (modelsIds : List Int)
    (dicOfParams : List (String × PVal)) : Except String JitModel :=
  (JitModel.setDefaultsGo modelsIds m (dicOfParams.map Prod.fst)).map
    (fun m' =>
      { m' with default := dicOfParams.foldl (fun d p => alistSet d p.1 p.2) m'.default })

-- ## Basic facts about `intRange`

theorem intRange_self (a : Int) : intRange a a = [] := by
  simp [intRange]

theorem intRange_succ_right {a b : Int} (h : a ≤ b) :
    intRange a (b + 1) = intRange a b ++ [b] := by
  unfold intRange
  have h1 : (b + 1 - a).toNat = (b - a).toNat + 1 := by omega
  rw [h1, List.range_succ, List.map_append, List.map_singleton]
  have h2 : a + ((b - a).toNat : Int) = b := by omega
  rw [h2]

theorem intRange_single (a : Int) : intRange a (a + 1) = [a] := by
  rw [intRange_succ_right le_rfl, intRange_self]
  simp

theorem intRange_map_add (f a b : Int) :
    intRange (f + a) (f + b) = (intRange a b).map (fun p => f + p) := by
  unfold intRange
  have h : f + b - (f + a) = b - a := by ring
  rw [h, List.map_map]
  apply List.map_congr_left
  intro n _
  simp only [Function.comp_apply]
  ring

-- ## The grouping loop concatenates back to the input

theorem groupLoop_flatMap (rest : List Int) :
    ∀ (first last : Int) (res : List (Int × Int)),
      first ≤ last → List.Chain' (fun a b => a < b) (last :: rest) →
      (groupLoop rest first last res).flatMap (fun g => intRange g.1 g.2)
        = res.flatMap (fun g => intRange g.1 g.2) ++ intRange first (last + 1) ++ rest := by
  induction rest with
  | nil =>
      intro first last res _ _
      simp [groupLoop]
  | cons i rest ih =>
      intro first last res hfl hch
      have hlt : last < i := (List.chain'_cons.mp hch).1
      have hch' : List.Chain' (fun a b => a < b) (i :: rest) := (List.chain'_cons.mp hch).2
      by_cases hstep : i - last = 1
      · have hi : i = last + 1 := by omega
        rw [groupLoop, if_pos hstep]
        rw [ih first i res (by omega) hch']
        subst hi
        rw [intRange_succ_right (by omega : first ≤ last + 1)]
        simp [List.append_assoc]
      · rw [groupLoop, if_neg hstep]
        rw [ih i i (res ++ [(first, last + 1)]) le_rfl hch']
        rw [List.flatMap_append, intRange_single]
        simp [List.append_assoc]

theorem groupByDistance_flatMap (P : List Int) (hne : P ≠ [])
    (hch : List.Chain' (fun a b => a < b) P) :
    (groupByDistance P).flatMap (fun g => intRange g.1 g.2) = P := by
  match P with
  | [] => exact absurd rfl hne
  | [x] =>
      simp [groupByDistance, intRange_single]
  | x :: y :: rest =>
      rw [groupByDistance]
      rw [groupLoop_flatMap (y :: rest) x x [] le_rfl hch]
      rw [intRange_single]
      simp

/-- C1. For a `JitNode` with `last > first` and a non-empty strictly
ascending list `P` of integer positions all below `len(node)`, indexing via
`__getNodesAt` succeeds and partitions `P` into maximal consecutive runs,
one `JitNode` per run translated by the node's `first`; concatenating the
`tolist()` of the resulting sub-nodes reproduces exactly the virtual IDs
`node.first + p` for `p ∈ P`, in order. -/
theorem getNodesAt_round_trip (n : JitNode) (P : List Int)
    (hfl : n.first < n.last) (hne : P ≠ [])
    (hP : List.Chain' (fun a b => a < b) P)
    (hlt : ∀ p ∈ P, p < n.last - n.first) :
    ∃ ns, n.getNodesAt P = some ns ∧
      ns.flatMap JitNode.tolist = P.map (fun p => n.first + p) := by
  have hall : P.all (fun p => decide (p < n.last - n.first)) = true := by
    rw [List.all_eq_true]
    intro p hp
    exact decide_eq_true (hlt p hp)
  refine ⟨_, by rw [JitNode.getNodesAt, if_pos hall], ?_⟩
  rw [List.flatMap_map]
  have hcongr :
      (groupByDistance P).flatMap
          (fun g => JitNode.tolist
            { name := n.name, first := n.first + g.1, last := n.first + g.1 + g.2 - g.1 })
        = (groupByDistance P).flatMap (fun g => (intRange g.1 g.2).map (fun p => n.first + p)) := by
    apply List.flatMap_congr
    intro g _
    have h2 : n.first + g.1 + g.2 - g.1 = n.first + g.2 := by ring
    rw [JitNode.tolist]
    simp only [h2]
    exact intRange_map_add n.first g.1 g.2
  rw [hcongr, ← List.map_flatMap, groupByDistance_flatMap P hne hP]

/-- Witness for C1 at `n = [10, 16)`, `P = [0, 1, 2, 5]`. -/
theorem getNodesAt_round_trip_witness :
    ∃ ns, JitNode.getNodesAt { name := "m", first := 10, last := 16 } [0, 1, 2, 5] = some ns ∧
      ns.flatMap JitNode.tolist = [(0 : Int), 1, 2, 5].map (fun p => 10 + p) :=
  getNodesAt_round_trip { name := "m", first := 10, last := 16 } [0, 1, 2, 5]
    (by decide) (by decide) (by simp [List.chain'_cons]) (by decide)

/-- C10. For every `JitNode` respecting the bound invariant `first ≤ last`
(the data model requires `last > first`) and every integer `i` — including
`i < first` and `i ≥ last` — the membership test `i in n` returns `True`:
the guard `obj < self.first and obj >= self.last` is unsatisfiable, so
integer containment never returns `False` and does not decide whether a
virtual ID lies inside the half-open interval. -/
theorem containsInt_always_true (n : JitNode) (i : Int) (h : n.first ≤ n.last) :
    n.containsInt i = true := by
  rw [JitNode.containsInt, if_neg]
  omega

/-- Witness for C10 at `n = [0, 3)` and the out-of-range id `100`. -/
theorem containsInt_always_true_witness :
    JitNode.containsInt { name := "m", first := 0, last := 3 } 100 = true :=
  containsInt_always_true { name := "m", first := 0, last := 3 } 100 (by decide)

/-- C5 (code bug).  Boolean-mask indexing of `[0, 3)` by
`[True, False, True]` should select positions `{0, 2}` and yield the nodes
`[0, 1)` and `[2, 3)`; instead `__getitem__` discards the computed
`argwhere` positions and hands the raw mask (coerced to the integers
`[1, 0, 1]`) to `__getNodesAt`, producing the nodes `[1, 2)` and `[0, 2)`. -/
theorem getItemBool_mask_bug :
    JitNode.getItemBool { name := "m", first := 0, last := 3 } [true, false, true]
        = .ok (some [{ name := "m", first := 1, last := 2 },
                     { name := "m", first := 0, last := 2 }]) ∧
      some [({ name := "m", first := 1, last := 2 } : JitNode),
            { name := "m", first := 0, last := 2 }]
        ≠ some [({ name := "m", first := 0, last := 1 } : JitNode),
                { name := "m", first := 2, last := 3 }] := by
  exact ⟨rfl, by decide⟩

/-- C4 (counterexample).  The claim distinguishes a repeat materialization
(`AlreadyMaterializedError`) from materializing a sliced view
(`NotInitialError`), but the code raises one and the same generic
`Exception` in both situations: re-materializing an already materialized
collection and materializing a derived view produce identical errors. -/
theorem createNodeCollection_single_error :
    JitNodeCollection.createNodeCollection
        { nodes := [{ name := "m", first := 0, last := 3 }], isNotInitial := true }
      = JitNodeCollection.createNodeCollection
        { nodes := [{ name := "m", first := 0, last := 1 }], isNotInitial := true } ∧
    JitNodeCollection.createNodeCollection
        { nodes := [{ name := "m", first := 0, last := 3 }], isNotInitial := true }
      = .error "Only initial JitNodeCollection can be converted to NodeCollection" :=
  ⟨rfl, rfl⟩

/-- C4 (amended).  Materializing an initial, non-empty collection succeeds
exactly once: it returns the collection with `isNotInitial` flipped to
`True`, a second materialization of the result fails, and materializing any
collection with `isNotInitial=True` (every derived/sliced view carries the
constructor default `True`) fails — both with the same generic
`Exception("Only initial JitNodeCollection can be converted to NodeCollection")`. -/
theorem createNodeCollection_at_most_once (c d : JitNodeCollection)
    (hc : c.isNotInitial = false) (hn : c.nodes ≠ [])
    (hd : d.isNotInitial = true) :
    c.createNodeCollection = .ok { c with isNotInitial := true } ∧
      JitNodeCollection.createNodeCollection { c with isNotInitial := true }
        = .error "Only initial JitNodeCollection can be converted to NodeCollection" ∧
      d.createNodeCollection
        = .error "Only initial JitNodeCollection can be converted to NodeCollection" := by
  refine ⟨?_, ?_, ?_⟩
  · rw [JitNodeCollection.createNodeCollection, if_pos hc]
    match h : c.nodes with
    | [] => exact absurd h hn
    | _ :: _ => rfl
  · rw [JitNodeCollection.createNodeCollection, if_neg (by simp)]
  · rw [JitNodeCollection.createNodeCollection, if_neg (by simp [hd])]

/-- Witness for C4 at an initial one-node collection and a derived view. -/
theorem createNodeCollection_at_most_once_witness :
    JitNodeCollection.createNodeCollection
        { nodes := [{ name := "m", first := 0, last := 3 }], isNotInitial := false }
      = .ok { nodes := [{ name := "m", first := 0, last := 3 }], isNotInitial := true } ∧
      JitNodeCollection.createNodeCollection
          { nodes := [{ name := "m", first := 0, last := 3 }], isNotInitial := true }
        = .error "Only initial JitNodeCollection can be converted to NodeCollection" ∧
      JitNodeCollection.createNodeCollection
          { nodes := [{ name := "m", first := 1, last := 2 }], isNotInitial := true }
        = .error "Only initial JitNodeCollection can be converted to NodeCollection" :=
  createNodeCollection_at_most_once
    { nodes := [{ name := "m", first := 0, last := 3 }], isNotInitial := false }
    { nodes := [{ name := "m", first := 1, last := 2 }], isNotInitial := true }
    rfl (by decide) rfl

/-- C8 (code bug).  Merging two collections should concatenate their node
lists without coalescing, but `__add__` reads `copy.nodes` — the stdlib
`copy` module instead of the `other` operand — so the merge of the two
collections `[0, 3)` and `[3, 7)` (and every other merge) raises
`AttributeError` instead of returning the concatenation. -/
theorem add_always_raises :
    JitNodeCollection.add
        { nodes := [{ name := "A", first := 0, last := 3 }], isNotInitial := false }
        { nodes := [{ name := "B", first := 3, last := 7 }], isNotInitial := false }
      = .error "AttributeError: module copy has no attribute nodes" :=
  rfl

-- ## Facts about `firstIdx` (Python `list.index`)

theorem firstIdx_lt_length {l : List Int} {i : Int} (h : i ∈ l) :
    firstIdx l i < l.length := by
  induction l with
  | nil => cases h
  | cons x rest ih =>
      rw [firstIdx]
      by_cases hx : x = i
      · simp [hx]
      · rw [if_neg hx]
        have hmem : i ∈ rest := by
          cases List.mem_cons.mp h with
          | inl h' => exact absurd h'.symm hx
          | inr h' => exact h'
        simpa using ih hmem

theorem getElem?_firstIdx {l : List Int} {i : Int} (h : i ∈ l) :
    l[firstIdx l i]? = some i := by
  induction l with
  | nil => cases h
  | cons x rest ih =>
      rw [firstIdx]
      by_cases hx : x = i
      · simp [hx]
      · rw [if_neg hx]
        have hmem : i ∈ rest := by
          cases List.mem_cons.mp h with
          | inl h' => exact absurd h'.symm hx
          | inr h' => exact h'
        simpa using ih hmem

theorem firstIdx_inj {l : List Int} {i j : Int} (hi : i ∈ l) (hj : j ∈ l)
    (hne : i ≠ j) : firstIdx l i ≠ firstIdx l j := by
  intro heq
  have h1 := getElem?_firstIdx hi
  rw [heq, getElem?_firstIdx hj] at h1
  exact hne (Option.some.inj h1).symm

theorem firstIdx_append_left {l l' : List Int} {j : Int} (h : j ∈ l) :
    firstIdx (l ++ l') j = firstIdx l j := by
  induction l with
  | nil => cases h
  | cons x rest ih =>
      rw [List.cons_append, firstIdx, firstIdx]
      by_cases hx : x = j
      · simp [hx]
      · rw [if_neg hx, if_neg hx]
        have hmem : j ∈ rest := by
          cases List.mem_cons.mp h with
          | inl h' => exact absurd h'.symm hx
          | inr h' => exact h'
        rw [ih hmem]

theorem firstIdx_append_self {l : List Int} {i : Int} (h : i ∉ l) :
    firstIdx (l ++ [i]) i = l.length := by
  induction l with
  | nil => simp [firstIdx]
  | cons x rest ih =>
      simp only [List.mem_cons, not_or] at h
      rw [List.cons_append, firstIdx, if_neg (fun e => h.1 e.symm), ih h.2,
        List.length_cons]

theorem zip_nodup_lookup {ids : List Int} {vs : List PVal} {i : Int} {v : PVal}
    (hnd : ids.Nodup) (hm : (i, v) ∈ ids.zip vs) :
    i ∈ ids ∧ vs[firstIdx ids i]? = some v := by
  induction ids generalizing vs with
  | nil => simp at hm
  | cons x rest ih =>
      cases vs with
      | nil => simp at hm
      | cons w vs' =>
          rw [List.zip_cons_cons] at hm
          cases List.mem_cons.mp hm with
          | inl h =>
              have h1 : i = x := congrArg Prod.fst h
              have h2 : v = w := congrArg Prod.snd h
              subst h1; subst h2
              refine ⟨by simp, ?_⟩
              rw [firstIdx, if_pos rfl]
              simp
          | inr h =>
              have hi : i ∈ rest := (List.of_mem_zip h).1
              have hx : x ≠ i := by
                intro e
                exact (List.nodup_cons.mp hnd).1 (e ▸ hi)
              have := ih (List.nodup_cons.mp hnd).2 h
              refine ⟨List.mem_cons_of_mem x hi, ?_⟩
              rw [firstIdx, if_neg hx, List.getElem?_cons_succ]
              exact this.2

-- ## The upsert step of `JitAtribute.update`

theorem upsertOne_eq_step {a : JitAtribute} (hwf : a.WF) (i : Int) (v : PVal) :
    a.upsertOne i v = .ok (specUpsertStep a (i, v)) := by
  rw [JitAtribute.upsertOne, specUpsertStep]
  by_cases hc : a.modelIds.contains i = true
  · rw [if_pos hc, if_pos hc, if_pos (hwf ▸ firstIdx_lt_length (List.elem_iff.mp hc))]
  · rw [if_neg hc, if_neg hc]

theorem step_WF {a : JitAtribute} (hwf : a.WF) (p : Int × PVal) :
    (specUpsertStep a p).WF := by
  rw [specUpsertStep]
  by_cases hc : a.modelIds.contains p.1 = true
  · rw [if_pos hc]
    simpa [JitAtribute.WF] using hwf
  · rw [if_neg hc]
    have h : a.modelIds.length = a.values.length := hwf
    simp only [JitAtribute.WF, List.length_append, List.length_singleton]
    omega

theorem step_Inv {a : JitAtribute} (hinv : a.Inv) (p : Int × PVal) :
    (specUpsertStep a p).Inv := by
  rw [specUpsertStep]
  by_cases hc : a.modelIds.contains p.1 = true
  · rw [if_pos hc]
    exact ⟨by simpa using hinv.1, hinv.2⟩
  · rw [if_neg hc]
    constructor
    · have h : a.modelIds.length = a.values.length := hinv.1
      simp only [List.length_append, List.length_singleton]
      omega
    · rw [List.nodup_append]
      refine ⟨hinv.2, List.nodup_singleton _, ?_⟩
      intro x hx hy
      rw [List.mem_singleton] at hy
      subst hy
      exact absurd (List.elem_iff.mpr hx) (by simpa using hc)

theorem step_get_self {a : JitAtribute} (hwf : a.WF) (i : Int) (v : PVal) :
    (specUpsertStep a (i, v)).getValueOfId i = .ok v ∧
      (specUpsertStep a (i, v)).containsId i = true := by
  rw [specUpsertStep]
  by_cases hc : a.modelIds.contains i = true
  · rw [if_pos hc]
    have hlt : firstIdx a.modelIds i < a.values.length :=
      hwf ▸ firstIdx_lt_length (List.elem_iff.mp hc)
    constructor
    · rw [JitAtribute.getValueOfId]
      simp only [JitAtribute.containsId]
      rw [if_pos hc, List.getElem?_set_eq hlt]
    · exact hc
  · rw [if_neg hc]
    have hni : i ∉ a.modelIds := by
      intro hmem
      exact hc (List.elem_iff.mpr hmem)
    have hcont : (a.modelIds ++ [i]).contains i = true :=
      List.elem_iff.mpr (List.mem_append_right _ (List.mem_singleton.mpr rfl))
    constructor
    · rw [JitAtribute.getValueOfId]
      simp only [JitAtribute.containsId]
      rw [if_pos hcont, firstIdx_append_self hni, hwf, List.getElem?_concat_length]
    · exact hcont

theorem step_get_other {a : JitAtribute} (hwf : a.WF) {i j : Int} (v : PVal)
    (hne : j ≠ i) :
    (specUpsertStep a (i, v)).getValueOfId j = a.getValueOfId j ∧
      (specUpsertStep a (i, v)).containsId j = a.containsId j := by
  rw [specUpsertStep]
  by_cases hc : a.modelIds.contains i = true
  · rw [if_pos hc]
    refine ⟨?_, rfl⟩
    rw [JitAtribute.getValueOfId, JitAtribute.getValueOfId]
    simp only [JitAtribute.containsId]
    by_cases hcj : a.modelIds.contains j = true
    · rw [if_pos hcj, if_pos hcj,
        List.getElem?_set_ne
          (firstIdx_inj (List.elem_iff.mp hc) (List.elem_iff.mp hcj) (fun e => hne e.symm))]
    · rw [if_neg hcj, if_neg hcj]
  · rw [if_neg hc]
    have hcontEq : (a.modelIds ++ [i]).contains j = a.modelIds.contains j := by
      by_cases hcj : a.modelIds.contains j = true
      · rw [hcj]
        exact List.elem_iff.mpr (List.mem_append_left _ (List.elem_iff.mp hcj))
      · rw [Bool.eq_false_iff.mpr hcj, ← Bool.not_eq_true]
        intro hmem
        cases List.mem_append.mp (List.elem_iff.mp hmem) with
        | inl h' => exact hcj (List.elem_iff.mpr h')
        | inr h' => exact hne (List.mem_singleton.mp h')
    refine ⟨?_, hcontEq⟩
    rw [JitAtribute.getValueOfId, JitAtribute.getValueOfId]
    simp only [JitAtribute.containsId]
    rw [hcontEq]
    by_cases hcj : a.modelIds.contains j = true
    · rw [if_pos hcj, if_pos hcj, firstIdx_append_left (List.elem_iff.mp hcj),
        List.getElem?_append_left (hwf ▸ firstIdx_lt_length (List.elem_iff.mp hcj))]
    · rw [if_neg hcj, if_neg hcj]

-- ## The update loop as a fold of upsert steps

theorem updateGo_eq_foldl {a : JitAtribute} (pairs : List (Int × PVal)) (hwf : a.WF) :
    a.updateGo pairs = .ok (pairs.foldl specUpsertStep a) := by
  induction pairs generalizing a with
  | nil => rfl
  | cons p rest ih =>
      rw [JitAtribute.updateGo, List.foldl_cons]
      have hstep : a.upsertOne p.1 p.2 = .ok (specUpsertStep a (p.1, p.2)) :=
        upsertOne_eq_step hwf p.1 p.2
      rw [hstep]
      exact ih (step_WF hwf p)

theorem foldl_step_WF (pairs : List (Int × PVal)) {a : JitAtribute} (hwf : a.WF) :
    (pairs.foldl specUpsertStep a).WF := by
  induction pairs generalizing a with
  | nil => exact hwf
  | cons p rest ih => exact ih (step_WF hwf p)

theorem foldl_step_Inv (pairs : List (Int × PVal)) {a : JitAtribute} (hinv : a.Inv) :
    (pairs.foldl specUpsertStep a).Inv := by
  induction pairs generalizing a with
  | nil => exact hinv
  | cons p rest ih => exact ih (step_Inv hinv p)

theorem foldl_step_preserves (pairs : List (Int × PVal)) {a : JitAtribute}
    (hwf : a.WF) {j : Int} (hj : ∀ p ∈ pairs, j ≠ p.1) :
    (pairs.foldl specUpsertStep a).getValueOfId j = a.getValueOfId j ∧
      (pairs.foldl specUpsertStep a).containsId j = a.containsId j := by
  induction pairs generalizing a with
  | nil => exact ⟨rfl, rfl⟩
  | cons p rest ih =>
      rw [List.foldl_cons]
      have hstep := step_get_other (i := p.1) (j := j) hwf p.2 (hj p (by simp))
      have hrest := ih (step_WF hwf p) (fun q hq => hj q (List.mem_cons_of_mem p hq))
      exact ⟨hrest.1.trans hstep.1, hrest.2.trans hstep.2⟩

theorem foldl_step_sets (pairs : List (Int × PVal)) {a : JitAtribute}
    (hwf : a.WF) (hnd : (pairs.map Prod.fst).Nodup) {i : Int} {v : PVal}
    (hm : (i, v) ∈ pairs) :
    (pairs.foldl specUpsertStep a).getValueOfId i = .ok v ∧
      (pairs.foldl specUpsertStep a).containsId i = true := by
  induction pairs generalizing a with
  | nil => cases hm
  | cons p rest ih =>
      rw [List.foldl_cons]
      rw [List.map_cons, List.nodup_cons] at hnd
      cases List.mem_cons.mp hm with
      | inl h =>
          subst h
          have hself := step_get_self hwf i v
          have hni : i ∉ List.map Prod.fst rest := hnd.1
          have hpres := foldl_step_preserves rest (step_WF hwf (i, v))
            (j := i) (fun q hq e => hni (by
              rw [e]
              exact List.mem_map_of_mem Prod.fst hq))
          constructor
          · rw [hpres.1]
            exact hself.1
          · rw [hpres.2]
            exact hself.2
      | inr h =>
          exact ih (step_WF hwf p) hnd.2 h

/-- C6. `JitAtribute.update(ids, values)` with parallel lists of equal
length upserts each `(id, value)` pair in order — overwrite in place when
the id is already present, append otherwise (`specUpsertStep` is the
spec's wording of that step) — and fails with the length-mismatch
`ValueError` (the spec's `LengthMismatchError`) when `len(ids) !=
len(values)`.  The store is assumed to satisfy its parallel-list invariant
`len(ids) == len(values)`. -/
theorem update_upserts_each_pair (a : JitAtribute) (ids : List Int) (vs : List PVal) :
    (a.WF → ids.length = vs.length →
      a.update ids vs = .ok ((ids.zip vs).foldl specUpsertStep a)) ∧
    (ids.length ≠ vs.length → a.update ids vs = .error "ValueError") := by
  constructor
  · intro hwf hlen
    rw [JitAtribute.update, if_neg (by omega)]
    exact updateGo_eq_foldl _ hwf
  · intro hlen
    rw [JitAtribute.update, if_pos hlen]

/-- Witness for C6: updating the store `{0 ↦ 1}` with
`ids = [0, 2]`, `values = [2, 3]` overwrites id 0 in place and appends
id 2; an update with `len(ids) = 1 ≠ 0 = len(values)` raises. -/
theorem update_upserts_each_pair_witness :
    JitAtribute.update { attributeName := "tau", modelIds := [0], values := [PVal.num 1] }
        [0, 2] [PVal.num 2, PVal.num 3]
      = .ok (([(0, PVal.num 2), (2, PVal.num 3)] : List (Int × PVal)).foldl specUpsertStep
          { attributeName := "tau", modelIds := [0], values := [PVal.num 1] }) ∧
    JitAtribute.update { attributeName := "tau", modelIds := [0], values := [PVal.num 1] }
        [0] [] = .error "ValueError" :=
  ⟨(update_upserts_each_pair _ [0, 2] [PVal.num 2, PVal.num 3]).1 rfl rfl,
   (update_upserts_each_pair _ [0] []).2 (by decide)⟩

/-- C7 (counterexample).  The constructor accepts `ids = [0]`,
`values = []` — the guard only fires when `len(ids) != 1` — and produces a
store whose parallel lists have lengths 1 and 0, violating the claimed
invariant immediately after construction. -/
theorem init_breaks_invariant :
    JitAtribute.init "tau" [0] []
        = .ok { attributeName := "tau", modelIds := [0], values := [] } ∧
      ¬ (JitAtribute.mk "tau" [0] []).Inv := by
  constructor
  · rfl
  · intro h
    exact absurd h.1 (by decide)

/-- C7 (amended).  The AttributeStore invariant — `len(ids) == len(values)`
and each id at most once — holds after construction provided the
constructor ids are distinct and either the lists have equal length or a
single id receives a non-empty value list (the whole list is then stored as
that id's one value); it is *not* established by construction in general
(see the counterexample), but every successful `update` preserves it. -/
theorem attribute_invariant :
    (∀ (name : String) (ids : List Int) (values : List PVal) (a : JitAtribute),
        ids.Nodup →
        (ids.length = values.length ∨ (ids.length = 1 ∧ values ≠ [])) →
        JitAtribute.init name ids values = .ok a → a.Inv) ∧
    (∀ (a : JitAtribute) (ids : List Int) (vs : List PVal) (a' : JitAtribute),
        a.Inv → a.update ids vs = .ok a' → a'.Inv) := by
  constructor
  · intro name ids values a hnd hlen hinit
    rw [JitAtribute.init,
      if_neg (show ¬(ids.length ≠ values.length ∧ ids.length ≠ 1) by
        rcases hlen with h | h
        · exact fun hc => hc.1 h
        · exact fun hc => hc.2 h.1)] at hinit
    have ha := Except.ok.inj hinit
    subst ha
    by_cases hwrap : ids.length < values.length ∧ ids.length = 1
    · rw [if_pos hwrap]
      exact ⟨by simp [hwrap.2], hnd⟩
    · rw [if_neg hwrap]
      refine ⟨?_, hnd⟩
      show ids.length = values.length
      rcases hlen with h | h
      · exact h
      · have hle : ¬ ids.length < values.length := fun hlt => hwrap ⟨hlt, h.1⟩
        have hpos : 0 < values.length := List.length_pos.mpr h.2
        omega
  · intro a ids vs a' hinv hupd
    rw [JitAtribute.update] at hupd
    by_cases hlen : ids.length ≠ vs.length
    · rw [if_pos hlen] at hupd
      cases hupd
    · rw [if_neg hlen] at hupd
      rw [updateGo_eq_foldl _ hinv.1] at hupd
      have ha := Except.ok.inj hupd
      subst ha
      exact foldl_step_Inv _ hinv

/-- Witness for C7: the invariant after a well-formed construction and
after an update that overwrites one id and appends another. -/
theorem attribute_invariant_witness :
    (JitAtribute.mk "tau" [0] [PVal.num 1]).Inv ∧
      (([(0, PVal.num 2), (2, PVal.num 3)] : List (Int × PVal)).foldl specUpsertStep
        (JitAtribute.mk "tau" [0] [PVal.num 1])).Inv :=
  ⟨attribute_invariant.1 "tau" [0] [PVal.num 1] _ (by decide) (Or.inl rfl) rfl,
   attribute_invariant.2 (JitAtribute.mk "tau" [0] [PVal.num 1]) [0, 2]
     [PVal.num 2, PVal.num 3] _ ⟨rfl, by decide⟩
     ((update_upserts_each_pair _ [0, 2] [PVal.num 2, PVal.num 3]).1 rfl rfl)⟩

-- ## Association-list dictionary facts

theorem alistGet_set_self {α : Type} (l : List (String × α)) (k : String) (v : α) :
    alistGet (alistSet l k v) k = some v := by
  induction l with
  | nil => simp [alistSet, alistGet]
  | cons p rest ih =>
      rw [alistSet]
      by_cases hk : p.1 = k
      · rw [if_pos hk, alistGet, if_pos rfl]
      · rw [if_neg hk, alistGet, if_neg hk]
        exact ih

theorem alistGet_set_ne {α : Type} (l : List (String × α)) {k k' : String} (v : α)
    (h : k ≠ k') : alistGet (alistSet l k v) k' = alistGet l k' := by
  induction l with
  | nil => simp [alistSet, alistGet, h]
  | cons p rest ih =>
      rw [alistSet]
      by_cases hk : p.1 = k
      · rw [if_pos hk, alistGet, if_neg h, alistGet, if_neg (hk ▸ h)]
      · rw [if_neg hk, alistGet, alistGet]
        by_cases hk' : p.1 = k'
        · rw [if_pos hk', if_pos hk']
        · rw [if_neg hk', if_neg hk']
          exact ih

theorem keys_contains_of_get {α : Type} {l : List (String × α)} {k : String} {d : α}
    (h : alistGet l k = some d) : (l.map Prod.fst).contains k = true := by
  induction l with
  | nil => cases h
  | cons p rest ih =>
      rw [alistGet] at h
      rw [List.map_cons]
      by_cases hk : p.1 = k
      · exact List.elem_iff.mpr (hk ▸ List.mem_cons_self p.1 (rest.map Prod.fst))
      · rw [if_neg hk] at h
        exact List.elem_iff.mpr (List.mem_cons_of_mem p.1 (List.elem_iff.mp (ih h)))

theorem mem_zip_replicate {l : List Int} {j : Int} (h : j ∈ l) (c : PVal) :
    (j, c) ∈ l.zip (List.replicate l.length c) := by
  induction l with
  | nil => cases h
  | cons x rest ih =>
      rw [List.length_cons, List.replicate_succ, List.zip_cons_cons]
      cases List.mem_cons.mp h with
      | inl h' => exact h' ▸ List.mem_cons_self (x, c) _
      | inr h' => exact List.mem_cons_of_mem (x, c) (ih h')

-- ## Evaluating `JitModel.get` on one key

theorem getK_of_overrides {m : JitModel} {k : String} {a : JitAtribute}
    (hk : alistGet m.attributes k = some a) (ids : List Int) :
    ∀ (vs : List PVal), ids.length = vs.length →
      (∀ p ∈ ids.zip vs, a.containsId p.1 = true ∧ a.getValueOfId p.1 = .ok p.2) →
      m.getK k false ids = .ok vs := by
  induction ids with
  | nil =>
      intro vs hlen _
      rw [JitModel.getK]
      cases vs with
      | nil => rfl
      | cons w ws => cases hlen
  | cons i rest ih =>
      intro vs hlen hfacts
      cases vs with
      | nil => cases hlen
      | cons v vs' =>
          have hhead := hfacts (i, v) (by rw [List.zip_cons_cons]; exact List.mem_cons_self _ _)
          have htail := ih vs' (by simpa using hlen)
            (fun p hp => hfacts p (by rw [List.zip_cons_cons]; exact List.mem_cons_of_mem _ hp))
          rw [JitModel.getK]
          simp only [hk, hhead.1, hhead.2, if_true, htail]
          rfl

theorem getK_single_override {m : JitModel} {k : String} {a : JitAtribute} {i : Int}
    {val : PVal} (hk : alistGet m.attributes k = some a) (hc : a.containsId i = true)
    (hv : a.getValueOfId i = .ok val) : m.getK k false [i] = .ok [val] := by
  rw [JitModel.getK]
  simp only [hk, hc, hv, if_true]
  rw [JitModel.getK]
  rfl

theorem getK_single_default {m : JitModel} {k : String} {d : PVal} {i : Int}
    (hd : alistGet m.default k = some d)
    (hno : ∀ a, alistGet m.attributes k = some a → a.containsId i = false) :
    m.getK k false [i] = .ok [d] := by
  rw [JitModel.getK]
  cases ha : alistGet m.attributes k with
  | none =>
      simp only [ha, hd, Bool.false_eq_true, if_false]
      rw [JitModel.getK]
      rfl
  | some a =>
      simp only [ha, hno a ha, hd, Bool.false_eq_true, if_false]
      rw [JitModel.getK]
      rfl

theorem get_single_key {m : JitModel} {k : String} {d : PVal} {ids : List Int}
    {vs : List PVal} (hd : alistGet m.default k = some d) (hvs : vs ≠ [])
    (hgk : m.getK k false ids = .ok vs) :
    m.get ids [k] false = .ok [(k, packVals vs)] := by
  rw [JitModel.get]
  have hfilter :
      List.filter (fun k' => (m.default.map Prod.fst).contains k') [k] = [k] := by
    rw [List.filter_cons, List.filter_nil]
    rw [if_pos (keys_contains_of_get hd)]
  rw [hfilter, JitModel.getGo, hgk]
  cases vs with
  | nil => exact absurd rfl hvs
  | cons v vs' => rfl

-- ## Evaluating `JitModel.set` on one attribute

theorem init_eq_of_length {k : String} {ids : List Int} {vs : List PVal}
    (hlen : ids.length = vs.length) :
    JitAtribute.init k ids vs = .ok (JitAtribute.mk k ids vs) := by
  rw [JitAtribute.init, if_neg (fun hc => hc.1 hlen)]
  rw [if_neg (show ¬(ids.length < vs.length ∧ ids.length = 1) by omega)]

theorem update_eq_of_wf {a : JitAtribute} (hwf : a.WF) {ids : List Int} {vs : List PVal}
    (hlen : ids.length = vs.length) :
    a.update ids vs = .ok ((ids.zip vs).foldl specUpsertStep a) := by
  rw [JitAtribute.update, if_neg (by omega)]
  exact updateGo_eq_foldl _ hwf

theorem set_single_vec {m : JitModel} {k : String} (ids : List Int) (vs : List PVal)
    (hlen : vs.length = ids.length) (a' : JitAtribute)
    (hstore :
      (match alistGet m.attributes k with
       | some attr => attr.update ids vs
       | none => JitAtribute.init k ids vs) = .ok a') :
    m.set ids [(k, PVal.vec vs)]
      = .ok { m with attributes := alistSet m.attributes k a' } := by
  have hcond : ¬(vs.length ≠ ids.length ∧ headIsList vs = true) := fun hc => hc.1 hlen
  rw [JitModel.set]
  cases ha : alistGet m.attributes k with
  | some attr =>
      rw [ha] at hstore
      have hstore' : attr.update ids vs = .ok a' := hstore
      simp only [JitModel.setOne, ha, if_neg hcond, hstore', Except.map]
      rfl
  | none =>
      rw [ha] at hstore
      have hstore' : JitAtribute.init k ids vs = .ok a' := hstore
      simp only [JitModel.setOne, ha, if_neg hcond, hstore', Except.map]
      rfl

theorem mk_store_get {k : String} {ids : List Int} {vs : List PVal} (hnd : ids.Nodup)
    {p : Int × PVal} (hp : p ∈ ids.zip vs) :
    (JitAtribute.mk k ids vs).containsId p.1 = true ∧
      (JitAtribute.mk k ids vs).getValueOfId p.1 = .ok p.2 := by
  have h := zip_nodup_lookup (i := p.1) (v := p.2) hnd hp
  have hc : (JitAtribute.mk k ids vs).containsId p.1 = true := List.elem_iff.mpr h.1
  refine ⟨hc, ?_⟩
  rw [JitAtribute.getValueOfId, if_pos hc]
  have hval : (JitAtribute.mk k ids vs).values[firstIdx (JitAtribute.mk k ids vs).modelIds p.1]?
      = some p.2 := h.2
  rw [hval]

/-- C2 (counterexample).  With the duplicated id list `[0, 0]`,
`set([0, 0], {tau: [1, 2]})` stores both pairs but every lookup of id 0
resolves to the *first* stored value, so the following `get([0, 0], [tau])`
returns `[1, 1]`, not the `[1, 2]` that was set. -/
theorem set_get_duplicate_ids :
    ((JitModel.set { default := [("tau", PVal.num 0)], attributes := [] } [0, 0]
          [("tau", PVal.vec [PVal.num 1, PVal.num 2])]).bind
        (fun m' => m'.get [0, 0] ["tau"] false))
      = .ok [("tau", GetRes.many [PVal.num 1, PVal.num 1])] ∧
    GetRes.many [PVal.num 1, PVal.num 1] ≠ GetRes.many [PVal.num 1, PVal.num 2] := by
  constructor
  · rfl
  · intro h
    simp at h

/-- C2 (amended).  For a model whose attribute stores satisfy the
parallel-list invariant, a *duplicate-free* non-empty id list, an attribute
`k` present in the model defaults, and a value list of the same length,
`set` followed by `get` with the same ids and attribute returns exactly the
values that were set; and `get` for an id on which `k` was never explicitly
set returns the model default for `k`.  (The claim fails for id lists with
repetitions, see the counterexample.) -/
theorem set_get_round_trip (m : JitModel) (ids : List Int) (k : String) (d : PVal)
    (vs : List PVal) (hwf : m.WF) (hnd : ids.Nodup) (hne : ids ≠ [])
    (hd : alistGet m.default k = some d) (hlen : vs.length = ids.length) :
    ((m.set ids [(k, PVal.vec vs)]).bind (fun m' => m'.get ids [k] false)
        = .ok [(k, packVals vs)]) ∧
    (∀ j : Int, (∀ a, alistGet m.attributes k = some a → a.containsId j = false) →
        m.get [j] [k] false = .ok [(k, GetRes.one d)]) := by
  have hvs : vs ≠ [] := by
    intro h
    subst h
    exact hne (List.length_eq_zero.mp hlen.symm)
  constructor
  · cases ha : alistGet m.attributes k with
    | some a =>
        have hawf : a.WF := hwf k a ha
        have hset := set_single_vec (m := m) (k := k) ids vs hlen
          ((ids.zip vs).foldl specUpsertStep a)
          (by rw [ha]; exact update_eq_of_wf hawf hlen.symm)
        rw [hset]
        have hattr :
            alistGet (JitModel.mk m.default
                (alistSet m.attributes k ((ids.zip vs).foldl specUpsertStep a))).attributes k
              = some ((ids.zip vs).foldl specUpsertStep a) := alistGet_set_self _ _ _
        have hndfst : ((ids.zip vs).map Prod.fst).Nodup := by
          rw [List.map_fst_zip ids vs (by omega)]
          exact hnd
        have hgk := getK_of_overrides hattr ids vs hlen.symm
          (fun p hp =>
            have hs := foldl_step_sets (ids.zip vs) (i := p.1) (v := p.2) hawf hndfst hp
            ⟨hs.2, hs.1⟩)
        exact get_single_key (d := d) hd hvs hgk
    | none =>
        have hset := set_single_vec (m := m) (k := k) ids vs hlen (JitAtribute.mk k ids vs)
          (by rw [ha]; exact init_eq_of_length hlen.symm)
        rw [hset]
        have hattr :
            alistGet (JitModel.mk m.default
                (alistSet m.attributes k (JitAtribute.mk k ids vs))).attributes k
              = some (JitAtribute.mk k ids vs) := alistGet_set_self _ _ _
        have hgk := getK_of_overrides hattr ids vs hlen.symm
          (fun p hp => mk_store_get hnd hp)
        exact get_single_key (d := d) hd hvs hgk
  · intro j hno
    exact get_single_key hd (by simp) (getK_single_default hd hno)

/-- Witness for C2 on a fresh two-instance model: setting
`tau := [5, 6]` on ids `[0, 1]` and reading it back, and reading the
default on the untouched id `7`. -/
theorem set_get_round_trip_witness :
    ((JitModel.set { default := [("tau", PVal.num 0)], attributes := [] } [0, 1]
          [("tau", PVal.vec [PVal.num 5, PVal.num 6])]).bind
        (fun m' => m'.get [0, 1] ["tau"] false))
      = .ok [("tau", packVals [PVal.num 5, PVal.num 6])] ∧
    JitModel.get { default := [("tau", PVal.num 0)], attributes := [] } [7] ["tau"] false
      = .ok [("tau", GetRes.one (PVal.num 0))] :=
  ⟨(set_get_round_trip { default := [("tau", PVal.num 0)], attributes := [] } [0, 1]
      "tau" (PVal.num 0) [PVal.num 5, PVal.num 6]
      (fun _ _ h => nomatch h) (by decide) (by decide) rfl rfl).1,
   (set_get_round_trip { default := [("tau", PVal.num 0)], attributes := [] } [0, 1]
      "tau" (PVal.num 0) [PVal.num 5, PVal.num 6]
      (fun _ _ h => nomatch h) (by decide) (by decide) rfl rfl).2 7
      (fun _ h => nomatch h)⟩

theorem set_num_eq_replicate (m : JitModel) (ids : List Int) (k : String) (n : Int) :
    m.set ids [(k, PVal.num n)]
      = m.set ids [(k, PVal.vec (List.replicate ids.length (PVal.num n)))] := by
  rw [JitModel.set, JitModel.set]
  have h : m.setOne ids k (PVal.num n)
      = m.setOne ids k (PVal.vec (List.replicate ids.length (PVal.num n))) := by
    rw [JitModel.setOne, JitModel.setOne,
      if_neg (fun hc => hc.1 (List.length_replicate _ _))]
  rw [h]

theorem getValueOfId_ok_of_contains {a : JitAtribute} (hwf : a.WF) {i : Int}
    (hc : a.containsId i = true) : ∃ val, a.getValueOfId i = .ok val := by
  rw [JitAtribute.getValueOfId, if_pos hc]
  have hlt : firstIdx a.modelIds i < a.values.length :=
    hwf ▸ firstIdx_lt_length (List.elem_iff.mp hc)
  cases hv : a.values[firstIdx a.modelIds i]? with
  | some val => exact ⟨val, rfl⟩
  | none =>
      rw [List.getElem?_eq_getElem hlt] at hv
      cases hv

/-- C9 (counterexample).  A sequence value whose length differs from
`len(ids)` does *not* always fail: when the attribute store does not exist
yet and `len(ids) == 1`, the constructor's guard (`len(ids) != 1`) lets the
call through, and the whole two-element sequence is stored as the single
value of id 0. -/
theorem set_length_mismatch_no_error :
    JitModel.set { default := [("tau", PVal.num 0)], attributes := [] } [0]
        [("tau", PVal.vec [PVal.num 1, PVal.num 2])]
      = .ok { default := [("tau", PVal.num 0)],
              attributes := [("tau",
                { attributeName := "tau", modelIds := [0],
                  values := [PVal.vec [PVal.num 1, PVal.num 2]] })] } :=
  rfl

/-- C9 (amended).  In `JitModel.set(ids, {k: v})`: a scalar `v` is
broadcast — it behaves exactly like the sequence `[v] * len(ids)` — and a
sequence `v` whose length differs from `len(ids)` fails: with `TypeError`
when its first element is itself a sequence, and with the length-mismatch
`ValueError` (the spec's `LengthMismatchError`) otherwise, *except* when
the attribute store does not yet exist and `len(ids) == 1` (see the
counterexample, where the whole sequence silently becomes the single id's
value). -/
theorem set_broadcast_and_length (m : JitModel) (ids : List Int) (k : String)
    (n : Int) (vs : List PVal) :
    (m.set ids [(k, PVal.num n)]
        = m.set ids [(k, PVal.vec (List.replicate ids.length (PVal.num n)))]) ∧
    (vs.length ≠ ids.length → headIsList vs = true →
        m.set ids [(k, PVal.vec vs)] = .error "TypeError") ∧
    (∀ a, vs.length ≠ ids.length → headIsList vs = false →
        alistGet m.attributes k = some a →
        m.set ids [(k, PVal.vec vs)] = .error "ValueError") ∧
    (vs.length ≠ ids.length → headIsList vs = false →
        alistGet m.attributes k = none → ids.length ≠ 1 →
        m.set ids [(k, PVal.vec vs)] = .error "ValueError") := by
  refine ⟨set_num_eq_replicate m ids k n, ?_, ?_, ?_⟩
  · intro hlen hhead
    rw [JitModel.set]
    rw [JitModel.setOne, if_pos ⟨hlen, hhead⟩]
  · intro a hlen hhead ha
    rw [JitModel.set]
    have hone : m.setOne ids k (PVal.vec vs) = .error "ValueError" := by
      rw [JitModel.setOne, if_neg (fun hc => by rw [hhead] at hc; exact absurd hc.2 (by simp))]
      simp only [ha]
      rw [JitAtribute.update, if_pos (by omega)]
      rfl
    rw [hone]
  · intro hlen hhead ha hone
    rw [JitModel.set]
    have honeq : m.setOne ids k (PVal.vec vs) = .error "ValueError" := by
      rw [JitModel.setOne, if_neg (fun hc => by rw [hhead] at hc; exact absurd hc.2 (by simp))]
      simp only [ha]
      rw [JitAtribute.init, if_pos ⟨by omega, hone⟩]
      rfl
    rw [honeq]

/-- Witness for C9: broadcasting the scalar 7 over two ids; `TypeError` on
a mismatched nested-list value; `ValueError` on a mismatched flat value
against an existing store, and against two ids with no store. -/
theorem set_broadcast_and_length_witness :
    (JitModel.set { default := [("tau", PVal.num 0)], attributes := [] } [0, 1]
        [("tau", PVal.num 7)]
      = JitModel.set { default := [("tau", PVal.num 0)], attributes := [] } [0, 1]
        [("tau", PVal.vec (List.replicate 2 (PVal.num 7)))]) ∧
    (JitModel.set { default := [("tau", PVal.num 0)], attributes := [] } [0, 1]
        [("tau", PVal.vec [PVal.vec []])] = .error "TypeError") ∧
    (JitModel.set
        { default := [("tau", PVal.num 0)],
          attributes := [("tau",
            { attributeName := "tau", modelIds := [0], values := [PVal.num 1] })] } [0]
        [("tau", PVal.vec [PVal.num 1, PVal.num 2])] = .error "ValueError") ∧
    (JitModel.set { default := [("tau", PVal.num 0)], attributes := [] } [0, 1]
        [("tau", PVal.vec [PVal.num 5])] = .error "ValueError") :=
  ⟨(set_broadcast_and_length { default := [("tau", PVal.num 0)], attributes := [] }
      [0, 1] "tau" 7 []).1,
   (set_broadcast_and_length { default := [("tau", PVal.num 0)], attributes := [] }
      [0, 1] "tau" 7 [PVal.vec []]).2.1 (by decide) rfl,
   (set_broadcast_and_length
      { default := [("tau", PVal.num 0)],
        attributes := [("tau",
          { attributeName := "tau", modelIds := [0], values := [PVal.num 1] })] }
      [0] "tau" 7 [PVal.num 1, PVal.num 2]).2.2.1
      { attributeName := "tau", modelIds := [0], values := [PVal.num 1] }
      (by decide) rfl rfl,
   (set_broadcast_and_length { default := [("tau", PVal.num 0)], attributes := [] }
      [0, 1] "tau" 7 [PVal.num 5]).2.2.2 (by decide) rfl rfl (by decide)⟩

-- ## Evaluating `JitModel.setDefaults` on one key

theorem setDefaultsGo_single_some {m : JitModel} {k : String} {a : JitAtribute}
    (ha : alistGet m.attributes k = some a) (hawf : a.WF) {dn : Int}
    (hd : alistGet m.default k = some (PVal.num dn)) (modelsIds : List Int)
    (hdd : modelsIds.dedup = modelsIds) :
    JitModel.setDefaultsGo modelsIds m [k]
      = .ok (JitModel.mk m.default (alistSet m.attributes k
          (((modelsIds.filter (fun j => !(a.modelIds.contains j))).zip
              (List.replicate (modelsIds.filter (fun j => !(a.modelIds.contains j))).length
                (PVal.num dn))).foldl specUpsertStep a))) := by
  rw [JitModel.setDefaultsGo]
  simp only [ha, hd, hdd]
  rw [set_num_eq_replicate]
  rw [set_single_vec _ _ (List.length_replicate _ _) _
    (by rw [ha]; exact update_eq_of_wf hawf (by rw [List.length_replicate]))]
  rfl

theorem setDefaultsGo_single_none {m : JitModel} {k : String}
    (ha : alistGet m.attributes k = none) {dn : Int}
    (hd : alistGet m.default k = some (PVal.num dn)) (modelsIds : List Int)
    (hdd : modelsIds.dedup = modelsIds) :
    JitModel.setDefaultsGo modelsIds m [k]
      = .ok (JitModel.mk m.default (alistSet m.attributes k
          (JitAtribute.mk k modelsIds (List.replicate modelsIds.length (PVal.num dn))))) := by
  rw [JitModel.setDefaultsGo]
  simp only [ha, hd, hdd]
  have hfilter : modelsIds.filter (fun j => !(List.contains ([] : List Int) j)) = modelsIds :=
    List.filter_eq_self.mpr (fun b _ => rfl)
  rw [hfilter, set_num_eq_replicate]
  rw [set_single_vec _ _ (List.length_replicate _ _) _
    (by rw [ha]; exact init_eq_of_length (by rw [List.length_replicate]))]
  rfl

theorem setDefaults_single {m M2 : JitModel} {modelsIds : List Int} {k : String}
    (v : PVal) (hgo : JitModel.setDefaultsGo modelsIds m [k] = .ok M2) :
    m.setDefaults modelsIds [(k, v)]
      = .ok (JitModel.mk (alistSet M2.default k v) M2.attributes) := by
  rw [JitModel.setDefaults]
  simp only [List.map_cons, List.map_nil]
  rw [hgo]
  rfl

theorem get_override_model {D : List (String × PVal)} {A : List (String × JitAtribute)}
    {k : String} {v : PVal} {A' : JitAtribute} {i : Int} {val : PVal}
    (hc : A'.containsId i = true) (hv : A'.getValueOfId i = .ok val) :
    (JitModel.mk (alistSet D k v) (alistSet A k A')).get [i] [k] false
      = .ok [(k, GetRes.one val)] := by
  have hk : alistGet (JitModel.mk (alistSet D k v) (alistSet A k A')).attributes k
      = some A' := alistGet_set_self _ _ _
  have hd' : alistGet (JitModel.mk (alistSet D k v) (alistSet A k A')).default k
      = some v := alistGet_set_self _ _ _
  exact get_single_key hd' (by simp) (getK_single_override hk hc hv)

theorem get_default_model {D : List (String × PVal)} {A : List (String × JitAtribute)}
    {k : String} {v : PVal} {A' : JitAtribute} {i : Int}
    (hc : A'.containsId i = false) :
    (JitModel.mk (alistSet D k v) (alistSet A k A')).get [i] [k] false
      = .ok [(k, GetRes.one v)] := by
  have hd' : alistGet (JitModel.mk (alistSet D k v) (alistSet A k A')).default k
      = some v := alistGet_set_self _ _ _
  refine get_single_key hd' (by simp) (getK_single_default hd' (fun a₁ h₁ => ?_))
  have hk : alistGet (JitModel.mk (alistSet D k v) (alistSet A k A')).attributes k
      = some A' := alistGet_set_self _ _ _
  have he : A' = a₁ := Option.some.inj ((hk.symm).trans h₁)
  exact he ▸ hc

/-- C3 (counterexample).  `setDefaults` pins every currently-known,
not-yet-overridden id to the *old* default before installing the new one:
after `setDefaults({tau: 5})` on a model whose known id 0 has no override,
`get` still observes the old default 0 — the observed value does *not*
change, contradicting the claim. -/
theorem setDefaults_does_not_change_unset :
    ((JitModel.setDefaults { default := [("tau", PVal.num 0)], attributes := [] } [0]
          [("tau", PVal.num 5)]).bind (fun m1 => m1.get [0] ["tau"] false))
      = .ok [("tau", GetRes.one (PVal.num 0))] ∧
    JitModel.get { default := [("tau", PVal.num 0)], attributes := [] } [0] ["tau"] false
      = .ok [("tau", GetRes.one (PVal.num 0))] ∧
    PVal.num 0 ≠ PVal.num 5 :=
  ⟨rfl, rfl, by simp⟩

/-- C3 (amended).  For an attribute `k` whose current default is a scalar,
after `setDefaults({k: v})` with the currently-known ids `modelsIds` (the
registry lives outside `src/` and is passed explicitly): ids with an
explicit override on `k` observe the same value as before; ids *known* at
call time without an override are pinned to the old scalar default and
also observe the same value as before (the claim wrongly expects them to
change); only ids unknown at call time and without an override observe the
new default `v`.  The scalar scope is essential: a list-valued default is
routed through `set`'s sequence branch by the pinning call
`self.set(modelsToUpdate, {key: self.default[key]})`, which distributes
the list's *elements* over the pinned ids (or raises on a length
mismatch), so there a known non-overridden id's observed value can
change. -/
theorem setDefaults_overrides_authoritative (m : JitModel) (modelsIds : List Int)
    (k : String) (dn : Int) (v : PVal) (hwf : m.WF) (hnd : modelsIds.Nodup)
    (hd : alistGet m.default k = some (PVal.num dn)) (i : Int) :
    (∀ a, alistGet m.attributes k = some a → a.containsId i = true →
        (m.setDefaults modelsIds [(k, v)]).bind (fun m' => m'.get [i] [k] false)
          = m.get [i] [k] false) ∧
    ((∀ a, alistGet m.attributes k = some a → a.containsId i = false) → i ∈ modelsIds →
        (m.setDefaults modelsIds [(k, v)]).bind (fun m' => m'.get [i] [k] false)
            = .ok [(k, GetRes.one (PVal.num dn))] ∧
          m.get [i] [k] false = .ok [(k, GetRes.one (PVal.num dn))]) ∧
    ((∀ a, alistGet m.attributes k = some a → a.containsId i = false) → i ∉ modelsIds →
        (m.setDefaults modelsIds [(k, v)]).bind (fun m' => m'.get [i] [k] false)
          = .ok [(k, GetRes.one v)]) := by
  have hdd : modelsIds.dedup = modelsIds := List.Nodup.dedup hnd
  cases ha : alistGet m.attributes k with
  | some a =>
      have hawf : a.WF := hwf k a ha
      have hsd := setDefaults_single v (setDefaultsGo_single_some ha hawf hd modelsIds hdd)
      refine ⟨?_, ?_, ?_⟩
      · intro a₀ ha₀ hcont
        have he : a = a₀ := Option.some.inj ha₀
        subst he
        have hcont' : a.modelIds.contains i = true := hcont
        have hni : i ∉ modelsIds.filter (fun j => !(a.modelIds.contains j)) := by
          intro hmem
          have h2 := (List.mem_filter.mp hmem).2
          rw [hcont'] at h2
          cases h2
        have hpres := foldl_step_preserves
          ((modelsIds.filter (fun j => !(a.modelIds.contains j))).zip
            (List.replicate (modelsIds.filter (fun j => !(a.modelIds.contains j))).length
              (PVal.num dn))) hawf (j := i)
          (fun p hp he2 => hni (by rw [he2]; exact (List.of_mem_zip hp).1))
        obtain ⟨val, hval⟩ := getValueOfId_ok_of_contains hawf hcont
        have hL : (m.setDefaults modelsIds [(k, v)]).bind (fun m' => m'.get [i] [k] false)
            = .ok [(k, GetRes.one val)] := by
          rw [hsd]
          exact get_override_model (hpres.2.trans hcont) (hpres.1.trans hval)
        have hR : m.get [i] [k] false = .ok [(k, GetRes.one val)] :=
          get_single_key hd (by simp) (getK_single_override ha hcont hval)
        rw [hL, hR]
      · intro hno hmem
        have hcf : a.modelIds.contains i = false := hno a rfl
        have hmemU : i ∈ modelsIds.filter (fun j => !(a.modelIds.contains j)) :=
          List.mem_filter.mpr ⟨hmem, by rw [hcf]; rfl⟩
        have hndfst :
            (((modelsIds.filter (fun j => !(a.modelIds.contains j))).zip
              (List.replicate (modelsIds.filter (fun j => !(a.modelIds.contains j))).length
                (PVal.num dn))).map Prod.fst).Nodup := by
          rw [List.map_fst_zip _ _ (by rw [List.length_replicate])]
          exact hnd.filter _
        have hs := foldl_step_sets
          ((modelsIds.filter (fun j => !(a.modelIds.contains j))).zip
            (List.replicate (modelsIds.filter (fun j => !(a.modelIds.contains j))).length
              (PVal.num dn))) hawf hndfst (mem_zip_replicate hmemU (PVal.num dn))
        constructor
        · rw [hsd]
          exact get_override_model hs.2 hs.1
        · exact get_single_key hd (by simp)
            (getK_single_default hd (fun a₁ h₁ => hno a₁ (ha.symm.trans h₁)))
      · intro hno hnm
        have hniU : i ∉ modelsIds.filter (fun j => !(a.modelIds.contains j)) :=
          fun hmem => hnm (List.mem_filter.mp hmem).1
        have hpres := foldl_step_preserves
          ((modelsIds.filter (fun j => !(a.modelIds.contains j))).zip
            (List.replicate (modelsIds.filter (fun j => !(a.modelIds.contains j))).length
              (PVal.num dn))) hawf (j := i)
          (fun p hp he2 => hniU (by rw [he2]; exact (List.of_mem_zip hp).1))
        rw [hsd]
        exact get_default_model (hpres.2.trans (hno a rfl))
  | none =>
      have hsd := setDefaults_single v (setDefaultsGo_single_none ha hd modelsIds hdd)
      refine ⟨?_, ?_, ?_⟩
      · intro a₀ ha₀ _
        exact Option.noConfusion ha₀
      · intro hno hmem
        have hs := mk_store_get (k := k) hnd (mem_zip_replicate hmem (PVal.num dn))
        constructor
        · rw [hsd]
          exact get_override_model hs.1 hs.2
        · exact get_single_key hd (by simp)
            (getK_single_default hd (fun a₁ h₁ => hno a₁ (ha.symm.trans h₁)))
      · intro _ hnm
        have hcf : (JitAtribute.mk k modelsIds
            (List.replicate modelsIds.length (PVal.num dn))).containsId i = false := by
          rw [Bool.eq_false_iff]
          exact fun hc => hnm (List.elem_iff.mp hc)
        rw [hsd]
        exact get_default_model hcf

/-- Witness for C3: a model with `tau` overridden on id 0 and known ids
`[0, 1]`; after `setDefaults({tau: 5})`, id 0 keeps its override, id 1 is
pinned to the old default 0, and the unknown id 7 observes the new 5. -/
theorem setDefaults_overrides_authoritative_witness :
    ((JitModel.setDefaults
          { default := [("tau", PVal.num 0)],
            attributes := [("tau",
              { attributeName := "tau", modelIds := [0], values := [PVal.num 9] })] }
          [0, 1] [("tau", PVal.num 5)]).bind (fun m' => m'.get [0] ["tau"] false)
        = JitModel.get
          { default := [("tau", PVal.num 0)],
            attributes := [("tau",
              { attributeName := "tau", modelIds := [0], values := [PVal.num 9] })] }
          [0] ["tau"] false) ∧
    ((JitModel.setDefaults
          { default := [("tau", PVal.num 0)],
            attributes := [("tau",
              { attributeName := "tau", modelIds := [0], values := [PVal.num 9] })] }
          [0, 1] [("tau", PVal.num 5)]).bind (fun m' => m'.get [1] ["tau"] false)
        = .ok [("tau", GetRes.one (PVal.num 0))]) ∧
    ((JitModel.setDefaults
          { default := [("tau", PVal.num 0)],
            attributes := [("tau",
              { attributeName := "tau", modelIds := [0], values := [PVal.num 9] })] }
          [0, 1] [("tau", PVal.num 5)]).bind (fun m' => m'.get [7] ["tau"] false)
        = .ok [("tau", GetRes.one (PVal.num 5))]) := by
  have hwf1 :
      (JitModel.mk [("tau", PVal.num 0)]
        [("tau", JitAtribute.mk "tau" [0] [PVal.num 9])]).WF := by
    intro k' a h
    simp only [alistGet] at h
    by_cases hk : "tau" = k'
    · rw [if_pos hk] at h
      cases h
      rfl
    · rw [if_neg hk] at h
      exact Option.noConfusion h
  refine ⟨?_, ?_, ?_⟩
  · exact (setDefaults_overrides_authoritative _ [0, 1] "tau" 0 (PVal.num 5) hwf1
      (by decide) rfl 0).1 (JitAtribute.mk "tau" [0] [PVal.num 9]) rfl rfl
  · exact ((setDefaults_overrides_authoritative _ [0, 1] "tau" 0 (PVal.num 5) hwf1
      (by decide) rfl 1).2.1 (fun a h => by
        cases h
        rfl) (by decide)).1
  · exact (setDefaults_overrides_authoritative _ [0, 1] "tau" 0 (PVal.num 5) hwf1
      (by decide) rfl 7).2.2 (fun a h => by
        cases h
        rfl) (by decide)
